import Mathlib

/-!
Verification of the TrustFrame sequence comparator (`src/trustframe/comparator.py`)
and its statistics layer in the CLI (`src/trustframe/cli.py`).

The comparator works on lists of frame-hash records `{'frame_number': int,
'hash': str}`.  `align_sequences` builds the Wagner-Fischer edit-distance
table and backtracks through it to recover a full alignment;
`analyze_differences` tallies the operation kinds;
`calculate_hamming_distance` grades two hex-string hashes by bit distance.
-/

set_option maxHeartbeats 1000000
set_option linter.unusedSectionVars false

namespace TrustFrame

/-- One element of a hash sequence, mirroring the Python dict
`{'frame_number': ..., 'hash': ...}` produced by the perceptual hasher. -/
structure FrameHash (α : Type) where
  frame_number : Nat
  hash : α
deriving DecidableEq

/-- The `'type'` field of an alignment operation dict. -/
inductive OpType where
  | match_
  | substitution
  | deletion
  | insertion
deriving DecidableEq

/-- An alignment operation dict as built by `align_sequences`:
`{'type': ..., 'ref_frame': ..., 'ev_frame': ..., 'ref_hash': ..., 'ev_hash': ...}`,
where a Python `None` is `Option.none`. -/
structure AOp (α : Type) where
  type : OpType
  ref_frame : Option Nat
  ev_frame : Option Nat
  ref_hash : Option α
  ev_hash : Option α
deriving DecidableEq

variable {α : Type} [DecidableEq α] [Inhabited α]

/-- The hash-string projection `ref_seq = [h['hash'] for h in ref_hashes]`
(and likewise `ev_seq`) performed at the top of `align_sequences`. -/
def hashList (l : List (FrameHash α)) : List α := l.map (·.hash)

/-- Read entry `l[i]` the way the backtracking loop does
(`ref_hashes[i - 1]`); out-of-range reads never occur in the algorithm and
are given a junk default. -/
def entryD (l : List (FrameHash α)) (i : Nat) : FrameHash α :=
  l.getD i ⟨0, default⟩

/-- Read hash `ref_seq[i]` (with a junk default out of range). -/
def tokD (l : List (FrameHash α)) (i : Nat) : α := (hashList l).getD i default

/-- The dynamic-programming table of `align_sequences`: `dpT A B i j` is the
value the Python code stores in `dp[i][j]`.  First row and column are the
base cases `dp[i][0] = i`, `dp[0][j] = j`; the interior follows the code's
recurrence, with the `min` taken over deletion `dp[i-1][j]`, insertion
`dp[i][j-1]` and substitution `dp[i-1][j-1]` in the code's order. -/
def dpT (A B : List α) : Nat → Nat → Nat
  | i, 0 => i
  | 0, j + 1 => j + 1
  | i + 1, j + 1 =>
    if A.getD i default = B.getD j default then
      dpT A B i j
    else
      1 + min (dpT A B i (j + 1)) (min (dpT A B (i + 1) j) (dpT A B i j))
termination_by i j => i + j

/-- Specification-side Levenshtein distance with unit costs, recursing on the
front of both lists.  `dpT` is proved equal to `lev` on reversed prefixes. -/
def lev : List α → List α → Nat
  | [], ys => ys.length
  | _ :: xs, [] => xs.length + 1
  | x :: xs, y :: ys =>
    if x = y then lev xs ys
    else 1 + min (lev xs (y :: ys)) (min (lev (x :: xs) ys) (lev xs ys))
termination_by xs ys => xs.length + ys.length

theorem lev_nil_left (ys : List α) : lev ([] : List α) ys = ys.length := by
  rw [lev]

theorem lev_nil_right (xs : List α) : lev xs ([] : List α) = xs.length := by
  cases xs with
  | nil => rw [lev]
  | cons x xs => rw [lev]; rfl

theorem lev_cons_cons (x y : α) (xs ys : List α) :
    lev (x :: xs) (y :: ys) =
      if x = y then lev xs ys
      else 1 + min (lev xs (y :: ys)) (min (lev (x :: xs) ys) (lev xs ys)) := by
  rw [lev]

/-- Editing one end of either sequence changes the distance by at most one,
in both directions.  Proved as one simultaneous strong induction. -/
theorem lev_step_bounds :
    ∀ (n : Nat) (xs ys : List α), xs.length + ys.length ≤ n →
      (∀ a, lev (a :: xs) ys ≤ 1 + lev xs ys) ∧
      (∀ b, lev xs (b :: ys) ≤ 1 + lev xs ys) ∧
      (∀ a, lev xs ys ≤ 1 + lev (a :: xs) ys) ∧
      (∀ b, lev xs ys ≤ 1 + lev xs (b :: ys)) := by
  intro n
  induction n with
  | zero =>
    intro xs ys h
    have hx : xs = [] := by cases xs <;> simp_all
    have hy : ys = [] := by cases ys <;> simp_all
    subst hx; subst hy
    refine ⟨fun a => ?_, fun b => ?_, fun a => ?_, fun b => ?_⟩ <;>
      simp [lev_nil_left, lev_nil_right]
  | succ n ih =>
    intro xs ys h
    refine ⟨fun a => ?_, fun b => ?_, fun a => ?_, fun b => ?_⟩
    · cases ys with
      | nil =>
        rw [lev_nil_right, lev_nil_right]
        simp only [List.length_cons]
        omega
      | cons y ys =>
        rw [lev_cons_cons]
        by_cases hay : a = y
        · rw [if_pos hay]
          have h4 := (ih xs ys (by simp at h ⊢; omega)).2.2.2 y
          exact h4
        · rw [if_neg hay]
          omega
    · cases xs with
      | nil =>
        rw [lev_nil_left, lev_nil_left]
        simp only [List.length_cons]
        omega
      | cons x xs =>
        rw [lev_cons_cons]
        by_cases hxb : x = b
        · rw [if_pos hxb]
          have h3 := (ih xs ys (by simp at h ⊢; omega)).2.2.1 x
          exact h3
        · rw [if_neg hxb]
          omega
    · cases ys with
      | nil =>
        rw [lev_nil_right, lev_nil_right]
        simp only [List.length_cons]
        omega
      | cons y ys =>
        conv_rhs => rw [lev_cons_cons]
        by_cases hay : a = y
        · rw [if_pos hay]
          have h2 := (ih xs ys (by simp at h ⊢; omega)).2.1 y
          exact h2
        · rw [if_neg hay]
          have h2 := (ih xs ys (by simp at h ⊢; omega)).2.1 y
          have h3 := (ih xs ys (by simp at h ⊢; omega)).2.2.1 a
          omega
    · cases xs with
      | nil =>
        rw [lev_nil_left, lev_nil_left]
        simp only [List.length_cons]
        omega
      | cons x xs =>
        conv_rhs => rw [lev_cons_cons]
        by_cases hxb : x = b
        · rw [if_pos hxb]
          have h1 := (ih xs ys (by simp at h ⊢; omega)).1 x
          exact h1
        · rw [if_neg hxb]
          have h1 := (ih xs ys (by simp at h ⊢; omega)).1 x
          have h4 := (ih xs ys (by simp at h ⊢; omega)).2.2.2 b
          omega

theorem lev_del_le (a : α) (xs ys : List α) : lev (a :: xs) ys ≤ 1 + lev xs ys :=
  (lev_step_bounds (xs.length + ys.length) xs ys le_rfl).1 a

theorem lev_ins_le (b : α) (xs ys : List α) : lev xs (b :: ys) ≤ 1 + lev xs ys :=
  (lev_step_bounds (xs.length + ys.length) xs ys le_rfl).2.1 b

theorem lev_sub_le (x y : α) (xs ys : List α) :
    lev (x :: xs) (y :: ys) ≤ 1 + lev xs ys := by
  rw [lev_cons_cons]
  by_cases h : x = y
  · rw [if_pos h]; omega
  · rw [if_neg h]; omega

theorem take_reverse_succ {β : Type} (l : List β) (i : Nat) (h : i < l.length) :
    (l.take (i + 1)).reverse = l[i] :: (l.take i).reverse := by
  rw [List.take_succ, List.getElem?_eq_getElem h]
  simp

/-- The code's DP table agrees with the recursive Levenshtein distance on
reversed prefixes: `dp[i][j]` is the distance between the first `i` elements
of `A` and the first `j` elements of `B`. -/
theorem dpT_eq_lev (A B : List α) :
    ∀ i j, i ≤ A.length → j ≤ B.length →
      dpT A B i j = lev (A.take i).reverse (B.take j).reverse := by
  intro i
  induction i with
  | zero =>
    intro j _ hj
    cases j with
    | zero => rw [dpT]; simp [lev_nil_left]
    | succ j =>
      rw [dpT]
      simp only [List.take_zero, List.reverse_nil, lev_nil_left,
        List.length_reverse, List.length_take]
      omega
  | succ i ihi =>
    intro j
    induction j with
    | zero =>
      intro hi _
      rw [dpT]
      simp only [List.take_zero, List.reverse_nil, lev_nil_right,
        List.length_reverse, List.length_take]
      omega
    | succ j ihj =>
      intro hi hj
      have hi' : i < A.length := hi
      have hj' : j < B.length := hj
      rw [dpT, take_reverse_succ A i hi', take_reverse_succ B j hj',
        lev_cons_cons, List.getD_eq_getElem A default hi',
        List.getD_eq_getElem B default hj']
      by_cases h : A[i] = B[j]
      · rw [if_pos h, if_pos h]
        exact ihi j (le_of_lt hi') (le_of_lt hj')
      · rw [if_neg h, if_neg h]
        have e1 := ihi (j + 1) (le_of_lt hi') hj
        have e2 := ihj hi (le_of_lt hj')
        have e3 := ihi j (le_of_lt hi') (le_of_lt hj')
        rw [take_reverse_succ B j hj'] at e1
        rw [take_reverse_succ A i hi'] at e2
        rw [e1, e2, e3]

theorem dpT_full (A B : List α) :
    dpT A B A.length B.length = lev A.reverse B.reverse := by
  rw [dpT_eq_lev A B _ _ le_rfl le_rfl, List.take_length, List.take_length]

/-- The backtracking `while i > 0 or j > 0` loop of `align_sequences`,
recursing on the cell `(i, j)` and consulting the DP table exactly in the
code's guard order: match, substitution (`dp[i][j] == dp[i-1][j-1] + 1`),
deletion (`dp[i][j] == dp[i-1][j] + 1`), insertion
(`dp[i][j] == dp[i][j-1] + 1`).  Guards whose `i > 0` / `j > 0` tests fail
are dropped in the arms where the index pattern decides them.  An arm's
final `else []` corresponds to the loop body falling through all guards
(the Python loop would then spin forever); it is proved unreachable. -/
def backtrack (refH evH : List (FrameHash α)) : Nat → Nat → List (AOp α)
  | 0, 0 => []
  | i + 1, j + 1 =>
    if tokD refH i = tokD evH j then
      ⟨.match_, some (entryD refH i).frame_number, some (entryD evH j).frame_number,
        some (tokD refH i), some (tokD evH j)⟩ :: backtrack refH evH i j
    else if dpT (hashList refH) (hashList evH) (i + 1) (j + 1) =
        dpT (hashList refH) (hashList evH) i j + 1 then
      ⟨.substitution, some (entryD refH i).frame_number, some (entryD evH j).frame_number,
        some (tokD refH i), some (tokD evH j)⟩ :: backtrack refH evH i j
    else if dpT (hashList refH) (hashList evH) (i + 1) (j + 1) =
        dpT (hashList refH) (hashList evH) i (j + 1) + 1 then
      ⟨.deletion, some (entryD refH i).frame_number, none, some (tokD refH i), none⟩ ::
        backtrack refH evH i (j + 1)
    else if dpT (hashList refH) (hashList evH) (i + 1) (j + 1) =
        dpT (hashList refH) (hashList evH) (i + 1) j + 1 then
      ⟨.insertion, none, some (entryD evH j).frame_number, none, some (tokD evH j)⟩ ::
        backtrack refH evH (i + 1) j
    else []
  | i + 1, 0 =>
    if dpT (hashList refH) (hashList evH) (i + 1) 0 =
        dpT (hashList refH) (hashList evH) i 0 + 1 then
      ⟨.deletion, some (entryD refH i).frame_number, none, some (tokD refH i), none⟩ ::
        backtrack refH evH i 0
    else []
  | 0, j + 1 =>
    if dpT (hashList refH) (hashList evH) 0 (j + 1) =
        dpT (hashList refH) (hashList evH) 0 j + 1 then
      ⟨.insertion, none, some (entryD evH j).frame_number, none, some (tokD evH j)⟩ ::
        backtrack refH evH 0 j
    else []
termination_by i j => i + j

/-- Function `align_sequences(ref_hashes, ev_hashes)`: the DP table value at
`(m, n)` is the edit distance, and the reversed backtracking trace is the
chronological alignment. -/
def align_sequences (ref_hashes ev_hashes : List (FrameHash α)) :
    List (AOp α) × Nat :=
  ((backtrack ref_hashes ev_hashes ref_hashes.length ev_hashes.length).reverse,
    dpT (hashList ref_hashes) (hashList ev_hashes) ref_hashes.length ev_hashes.length)

/-- The stats dict of `analyze_differences`. -/
structure AlignStats where
  «matches» : Nat
  substitutions : Nat
  insertions : Nat
  deletions : Nat
  total_operations : Nat
deriving DecidableEq

/-- One iteration of the counting loop in `analyze_differences`
(`stats[plural_map[op['type']]] += 1`). -/
def tallyStep (stats : AlignStats) (op : AOp α) : AlignStats :=
  match op.type with
  | .match_ => { stats with «matches» := stats.«matches» + 1 }
  | .substitution => { stats with substitutions := stats.substitutions + 1 }
  | .insertion => { stats with insertions := stats.insertions + 1 }
  | .deletion => { stats with deletions := stats.deletions + 1 }

/-- Function `analyze_differences(alignment)`: counters start at zero with
`total_operations = len(alignment)`, then one pass over the alignment. -/
def analyze_differences (alignment : List (AOp α)) : AlignStats :=
  alignment.foldl tallyStep ⟨0, 0, 0, 0, alignment.length⟩

/-- Reference-side tokens present in an alignment, in order. -/
def refTokens (al : List (AOp α)) : List α := al.filterMap (·.ref_hash)

/-- Evidence-side tokens present in an alignment, in order. -/
def evTokens (al : List (AOp α)) : List α := al.filterMap (·.ev_hash)

/-- An operation counts toward the edit distance unless it is a match. -/
def isCosted (op : AOp α) : Bool := decide (op.type ≠ OpType.match_)

/-- Number of costed (substitution/insertion/deletion) operations. -/
def opsCost (al : List (AOp α)) : Nat := al.countP isCosted

/-- Number of operations of a given kind. -/
def countType (t : OpType) (al : List (AOp α)) : Nat :=
  al.countP (fun op => decide (op.type = t))

theorem dpT_i_zero (A B : List α) (i : Nat) : dpT A B i 0 = i := by
  rw [dpT]

theorem dpT_zero_j (A B : List α) (j : Nat) : dpT A B 0 j = j := by
  cases j with
  | zero => rw [dpT]
  | succ j => rw [dpT]

theorem dpT_succ_succ (A B : List α) (i j : Nat) :
    dpT A B (i + 1) (j + 1) =
      if A.getD i default = B.getD j default then dpT A B i j
      else 1 + min (dpT A B i (j + 1)) (min (dpT A B (i + 1) j) (dpT A B i j)) := by
  rw [dpT]

theorem dpT_match (A B : List α) (i j : Nat)
    (h : A.getD i default = B.getD j default) :
    dpT A B (i + 1) (j + 1) = dpT A B i j := by
  rw [dpT_succ_succ, if_pos h]

/-- If the substitution and deletion guards both fail at an interior cell
with unequal tokens, the insertion guard must hold: the cell's value is
`1` plus the minimum of its three neighbours, so it equals one of them
plus one. -/
theorem dpT_ins_cond (A B : List α) (i j : Nat)
    (h1 : ¬A.getD i default = B.getD j default)
    (h2 : ¬dpT A B (i + 1) (j + 1) = dpT A B i j + 1)
    (h3 : ¬dpT A B (i + 1) (j + 1) = dpT A B i (j + 1) + 1) :
    dpT A B (i + 1) (j + 1) = dpT A B (i + 1) j + 1 := by
  have e := dpT_succ_succ A B i j
  rw [if_neg h1] at e
  omega

theorem backtrack_zero_zero (refH evH : List (FrameHash α)) :
    backtrack refH evH 0 0 = [] := by
  rw [backtrack]

theorem backtrack_col (refH evH : List (FrameHash α)) (i : Nat) :
    backtrack refH evH (i + 1) 0 =
      ⟨.deletion, some (entryD refH i).frame_number, none, some (tokD refH i), none⟩ ::
        backtrack refH evH i 0 := by
  rw [backtrack, dpT_i_zero, dpT_i_zero, if_pos rfl]

theorem backtrack_row (refH evH : List (FrameHash α)) (j : Nat) :
    backtrack refH evH 0 (j + 1) =
      ⟨.insertion, none, some (entryD evH j).frame_number, none, some (tokD evH j)⟩ ::
        backtrack refH evH 0 j := by
  rw [backtrack, dpT_zero_j, dpT_zero_j, if_pos rfl]

theorem backtrack_match (refH evH : List (FrameHash α)) (i j : Nat)
    (h1 : tokD refH i = tokD evH j) :
    backtrack refH evH (i + 1) (j + 1) =
      ⟨.match_, some (entryD refH i).frame_number, some (entryD evH j).frame_number,
        some (tokD refH i), some (tokD evH j)⟩ :: backtrack refH evH i j := by
  rw [backtrack, if_pos h1]

theorem backtrack_sub (refH evH : List (FrameHash α)) (i j : Nat)
    (h1 : ¬tokD refH i = tokD evH j)
    (h2 : dpT (hashList refH) (hashList evH) (i + 1) (j + 1) =
      dpT (hashList refH) (hashList evH) i j + 1) :
    backtrack refH evH (i + 1) (j + 1) =
      ⟨.substitution, some (entryD refH i).frame_number, some (entryD evH j).frame_number,
        some (tokD refH i), some (tokD evH j)⟩ :: backtrack refH evH i j := by
  rw [backtrack, if_neg h1, if_pos h2]

theorem backtrack_del (refH evH : List (FrameHash α)) (i j : Nat)
    (h1 : ¬tokD refH i = tokD evH j)
    (h2 : ¬dpT (hashList refH) (hashList evH) (i + 1) (j + 1) =
      dpT (hashList refH) (hashList evH) i j + 1)
    (h3 : dpT (hashList refH) (hashList evH) (i + 1) (j + 1) =
      dpT (hashList refH) (hashList evH) i (j + 1) + 1) :
    backtrack refH evH (i + 1) (j + 1) =
      ⟨.deletion, some (entryD refH i).frame_number, none, some (tokD refH i), none⟩ ::
        backtrack refH evH i (j + 1) := by
  rw [backtrack, if_neg h1, if_neg h2, if_pos h3]

theorem backtrack_ins (refH evH : List (FrameHash α)) (i j : Nat)
    (h1 : ¬tokD refH i = tokD evH j)
    (h2 : ¬dpT (hashList refH) (hashList evH) (i + 1) (j + 1) =
      dpT (hashList refH) (hashList evH) i j + 1)
    (h3 : ¬dpT (hashList refH) (hashList evH) (i + 1) (j + 1) =
      dpT (hashList refH) (hashList evH) i (j + 1) + 1) :
    backtrack refH evH (i + 1) (j + 1) =
      ⟨.insertion, none, some (entryD evH j).frame_number, none, some (tokD evH j)⟩ ::
        backtrack refH evH (i + 1) j := by
  have h4 := dpT_ins_cond (hashList refH) (hashList evH) i j h1 h2 h3
  rw [backtrack, if_neg h1, if_neg h2, if_neg h3, if_pos h4]

theorem tokD_eq_hash (l : List (FrameHash α)) (i : Nat) (h : i < l.length) :
    tokD l i = (entryD l i).hash := by
  have h' : i < (hashList l).length := by simpa [hashList] using h
  rw [tokD, entryD, List.getD_eq_getElem _ _ h', List.getD_eq_getElem _ _ h]
  simp [hashList]

theorem entryD_mem (l : List (FrameHash α)) (i : Nat) (h : i < l.length) :
    entryD l i ∈ l := by
  rw [entryD, List.getD_eq_getElem _ _ h]
  exact List.getElem_mem h

theorem tally_foldl (al : List (AOp α)) :
    ∀ s : AlignStats,
      al.foldl tallyStep s =
        ⟨s.«matches» + countType .match_ al,
          s.substitutions + countType .substitution al,
          s.insertions + countType .insertion al,
          s.deletions + countType .deletion al,
          s.total_operations⟩ := by
  induction al with
  | nil => intro s; simp [countType]
  | cons op al ih =>
    intro s
    rw [List.foldl_cons, ih]
    cases h : op.type <;>
      simp [tallyStep, h, countType, List.countP_cons] <;> omega

theorem analyze_differences_eq (al : List (AOp α)) :
    analyze_differences al =
      ⟨countType .match_ al, countType .substitution al, countType .insertion al,
        countType .deletion al, al.length⟩ := by
  rw [analyze_differences, tally_foldl]
  simp

theorem countType_partition (al : List (AOp α)) :
    countType .match_ al + countType .substitution al +
      countType .insertion al + countType .deletion al = al.length := by
  induction al with
  | nil => simp [countType]
  | cons op al ih =>
    cases h : op.type <;>
      simp [countType, List.countP_cons, h] at ih ⊢ <;> omega

theorem opsCost_eq_counts (al : List (AOp α)) :
    opsCost al = countType .substitution al + countType .insertion al +
      countType .deletion al := by
  induction al with
  | nil => simp [opsCost, countType]
  | cons op al ih =>
    cases h : op.type <;>
      simp [opsCost, isCosted, countType, List.countP_cons, h] at ih ⊢ <;> omega

theorem opsCost_cons (op : AOp α) (al : List (AOp α)) :
    opsCost (op :: al) =
      opsCost al + (if op.type = OpType.match_ then 0 else 1) := by
  rw [opsCost, List.countP_cons, opsCost]
  by_cases h : op.type = OpType.match_ <;> simp [isCosted, h]

/-- The number of costed operations emitted by backtracking from cell
`(i, j)` is exactly the table value `dp[i][j]`. -/
theorem backtrack_cost (refH evH : List (FrameHash α)) :
    ∀ n i j, i + j ≤ n → i ≤ refH.length → j ≤ evH.length →
      opsCost (backtrack refH evH i j) =
        dpT (hashList refH) (hashList evH) i j := by
  intro n
  induction n with
  | zero =>
    intro i j h _ _
    have hi0 : i = 0 := by omega
    have hj0 : j = 0 := by omega
    subst hi0; subst hj0
    rw [backtrack_zero_zero, dpT_i_zero]
    simp [opsCost]
  | succ n ih =>
    intro i j h hi hj
    cases i with
    | zero =>
      cases j with
      | zero =>
        rw [backtrack_zero_zero, dpT_i_zero]
        simp [opsCost]
      | succ j =>
        rw [backtrack_row, opsCost_cons, dpT_zero_j,
          ih 0 j (by omega) (by omega) (by omega), dpT_zero_j]
        simp
    | succ i =>
      cases j with
      | zero =>
        rw [backtrack_col, opsCost_cons, dpT_i_zero,
          ih i 0 (by omega) (by omega) (by omega), dpT_i_zero]
        simp
      | succ j =>
        by_cases h1 : tokD refH i = tokD evH j
        · rw [backtrack_match refH evH i j h1, opsCost_cons,
            ih i j (by omega) (by omega) (by omega),
            dpT_match (hashList refH) (hashList evH) i j h1]
          simp
        · by_cases h2 : dpT (hashList refH) (hashList evH) (i + 1) (j + 1) =
              dpT (hashList refH) (hashList evH) i j + 1
          · rw [backtrack_sub refH evH i j h1 h2, opsCost_cons,
              ih i j (by omega) (by omega) (by omega), h2]
            simp
          · by_cases h3 : dpT (hashList refH) (hashList evH) (i + 1) (j + 1) =
                dpT (hashList refH) (hashList evH) i (j + 1) + 1
            · rw [backtrack_del refH evH i j h1 h2 h3, opsCost_cons,
                ih i (j + 1) (by omega) (by omega) (by omega), h3]
              simp
            · have h4 := dpT_ins_cond (hashList refH) (hashList evH) i j h1 h2 h3
              rw [backtrack_ins refH evH i j h1 h2 h3, opsCost_cons,
                ih (i + 1) j (by omega) (by omega) (by omega), h4]
              simp

theorem hashTake_succ (l : List (FrameHash α)) (i : Nat) (h : i < l.length) :
    ((hashList l).take (i + 1)).reverse =
      tokD l i :: ((hashList l).take i).reverse := by
  have h' : i < (hashList l).length := by simpa [hashList] using h
  rw [take_reverse_succ _ _ h', tokD, List.getD_eq_getElem _ _ h']

/-- Replaying the backtracking trace from cell `(i, j)`: the present
reference-side tokens are (the reverse of) the first `i` reference hashes,
and the present evidence-side tokens are (the reverse of) the first `j`
evidence hashes. -/
theorem backtrack_replay (refH evH : List (FrameHash α)) :
    ∀ n i j, i + j ≤ n → i ≤ refH.length → j ≤ evH.length →
      refTokens (backtrack refH evH i j) = ((hashList refH).take i).reverse ∧
      evTokens (backtrack refH evH i j) = ((hashList evH).take j).reverse := by
  intro n
  induction n with
  | zero =>
    intro i j h _ _
    have hi0 : i = 0 := by omega
    have hj0 : j = 0 := by omega
    subst hi0; subst hj0
    rw [backtrack_zero_zero]
    simp [refTokens, evTokens]
  | succ n ih =>
    intro i j h hi hj
    cases i with
    | zero =>
      cases j with
      | zero =>
        rw [backtrack_zero_zero]
        simp [refTokens, evTokens]
      | succ j =>
        obtain ⟨ihr, ihe⟩ := ih 0 j (by omega) (by omega) (by omega)
        rw [backtrack_row]
        refine ⟨?_, ?_⟩
        · simpa [refTokens, List.filterMap_cons] using ihr
        · rw [hashTake_succ evH j (by omega)]
          simpa [evTokens, List.filterMap_cons] using ihe
    | succ i =>
      cases j with
      | zero =>
        obtain ⟨ihr, ihe⟩ := ih i 0 (by omega) (by omega) (by omega)
        rw [backtrack_col]
        refine ⟨?_, ?_⟩
        · rw [hashTake_succ refH i (by omega)]
          simpa [refTokens, List.filterMap_cons] using ihr
        · simpa [evTokens, List.filterMap_cons] using ihe
      | succ j =>
        by_cases h1 : tokD refH i = tokD evH j
        · obtain ⟨ihr, ihe⟩ := ih i j (by omega) (by omega) (by omega)
          rw [backtrack_match refH evH i j h1]
          refine ⟨?_, ?_⟩
          · rw [hashTake_succ refH i (by omega)]
            simpa [refTokens, List.filterMap_cons] using ihr
          · rw [hashTake_succ evH j (by omega)]
            simpa [evTokens, List.filterMap_cons] using ihe
        · by_cases h2 : dpT (hashList refH) (hashList evH) (i + 1) (j + 1) =
              dpT (hashList refH) (hashList evH) i j + 1
          · obtain ⟨ihr, ihe⟩ := ih i j (by omega) (by omega) (by omega)
            rw [backtrack_sub refH evH i j h1 h2]
            refine ⟨?_, ?_⟩
            · rw [hashTake_succ refH i (by omega)]
              simpa [refTokens, List.filterMap_cons] using ihr
            · rw [hashTake_succ evH j (by omega)]
              simpa [evTokens, List.filterMap_cons] using ihe
          · by_cases h3 : dpT (hashList refH) (hashList evH) (i + 1) (j + 1) =
                dpT (hashList refH) (hashList evH) i (j + 1) + 1
            · obtain ⟨ihr, ihe⟩ := ih i (j + 1) (by omega) (by omega) (by omega)
              rw [backtrack_del refH evH i j h1 h2 h3]
              refine ⟨?_, ?_⟩
              · rw [hashTake_succ refH i (by omega)]
                simpa [refTokens, List.filterMap_cons] using ihr
              · simpa [evTokens, List.filterMap_cons] using ihe
            · obtain ⟨ihr, ihe⟩ := ih (i + 1) j (by omega) (by omega) (by omega)
              rw [backtrack_ins refH evH i j h1 h2 h3]
              refine ⟨?_, ?_⟩
              · simpa [refTokens, List.filterMap_cons] using ihr
              · rw [hashTake_succ evH j (by omega)]
                simpa [evTokens, List.filterMap_cons] using ihe

/-- Shape invariant of a single operation dict produced by `align_sequences`
on inputs `refH`, `evH`: each kind carries exactly the fields the code sets,
taken from actual source elements, with equal hashes for a match and
unequal hashes for a substitution. -/
def opWellFormed (refH evH : List (FrameHash α)) (op : AOp α) : Prop :=
  match op.type with
  | .match_ => ∃ r ∈ refH, ∃ e ∈ evH, r.hash = e.hash ∧
      op.ref_frame = some r.frame_number ∧ op.ev_frame = some e.frame_number ∧
      op.ref_hash = some r.hash ∧ op.ev_hash = some e.hash
  | .substitution => ∃ r ∈ refH, ∃ e ∈ evH, r.hash ≠ e.hash ∧
      op.ref_frame = some r.frame_number ∧ op.ev_frame = some e.frame_number ∧
      op.ref_hash = some r.hash ∧ op.ev_hash = some e.hash
  | .deletion => op.ev_frame = none ∧ op.ev_hash = none ∧
      ∃ r ∈ refH, op.ref_frame = some r.frame_number ∧ op.ref_hash = some r.hash
  | .insertion => op.ref_frame = none ∧ op.ref_hash = none ∧
      ∃ e ∈ evH, op.ev_frame = some e.frame_number ∧ op.ev_hash = some e.hash

/-- Every operation emitted while backtracking from in-range `(i, j)` is
well formed. -/
theorem backtrack_wf (refH evH : List (FrameHash α)) :
    ∀ n i j, i + j ≤ n → i ≤ refH.length → j ≤ evH.length →
      ∀ op ∈ backtrack refH evH i j, opWellFormed refH evH op := by
  intro n
  induction n with
  | zero =>
    intro i j h _ _
    have hi0 : i = 0 := by omega
    have hj0 : j = 0 := by omega
    subst hi0; subst hj0
    rw [backtrack_zero_zero]
    intro op hop
    simp at hop
  | succ n ih =>
    intro i j h hi hj
    cases i with
    | zero =>
      cases j with
      | zero =>
        rw [backtrack_zero_zero]
        intro op hop
        simp at hop
      | succ j =>
        rw [backtrack_row]
        intro op hop
        rcases List.mem_cons.mp hop with rfl | hop'
        · refine ⟨rfl, rfl, entryD evH j, entryD_mem evH j (by omega), rfl, ?_⟩
          rw [tokD_eq_hash evH j (by omega)]
        · exact ih 0 j (by omega) (by omega) (by omega) op hop'
    | succ i =>
      cases j with
      | zero =>
        rw [backtrack_col]
        intro op hop
        rcases List.mem_cons.mp hop with rfl | hop'
        · refine ⟨rfl, rfl, entryD refH i, entryD_mem refH i (by omega), rfl, ?_⟩
          rw [tokD_eq_hash refH i (by omega)]
        · exact ih i 0 (by omega) (by omega) (by omega) op hop'
      | succ j =>
        by_cases h1 : tokD refH i = tokD evH j
        · rw [backtrack_match refH evH i j h1]
          intro op hop
          rcases List.mem_cons.mp hop with rfl | hop'
          · refine ⟨entryD refH i, entryD_mem refH i (by omega),
              entryD evH j, entryD_mem evH j (by omega), ?_, rfl, rfl, ?_, ?_⟩
            · rw [← tokD_eq_hash refH i (by omega), ← tokD_eq_hash evH j (by omega)]
              exact h1
            · rw [tokD_eq_hash refH i (by omega)]
            · rw [tokD_eq_hash evH j (by omega)]
          · exact ih i j (by omega) (by omega) (by omega) op hop'
        · by_cases h2 : dpT (hashList refH) (hashList evH) (i + 1) (j + 1) =
              dpT (hashList refH) (hashList evH) i j + 1
          · rw [backtrack_sub refH evH i j h1 h2]
            intro op hop
            rcases List.mem_cons.mp hop with rfl | hop'
            · refine ⟨entryD refH i, entryD_mem refH i (by omega),
                entryD evH j, entryD_mem evH j (by omega), ?_, rfl, rfl, ?_, ?_⟩
              · rw [← tokD_eq_hash refH i (by omega), ← tokD_eq_hash evH j (by omega)]
                exact h1
              · rw [tokD_eq_hash refH i (by omega)]
              · rw [tokD_eq_hash evH j (by omega)]
            · exact ih i j (by omega) (by omega) (by omega) op hop'
          · by_cases h3 : dpT (hashList refH) (hashList evH) (i + 1) (j + 1) =
                dpT (hashList refH) (hashList evH) i (j + 1) + 1
            · rw [backtrack_del refH evH i j h1 h2 h3]
              intro op hop
              rcases List.mem_cons.mp hop with rfl | hop'
              · refine ⟨rfl, rfl, entryD refH i, entryD_mem refH i (by omega), rfl, ?_⟩
                rw [tokD_eq_hash refH i (by omega)]
              · exact ih i (j + 1) (by omega) (by omega) (by omega) op hop'
            · rw [backtrack_ins refH evH i j h1 h2 h3]
              intro op hop
              rcases List.mem_cons.mp hop with rfl | hop'
              · refine ⟨rfl, rfl, entryD evH j, entryD_mem evH j (by omega), rfl, ?_⟩
                rw [tokD_eq_hash evH j (by omega)]
              · exact ih (i + 1) j (by omega) (by omega) (by omega) op hop'

/-- Minimal well-formedness an abstract edit operation must satisfy for the
"minimum number of operations" reading of edit distance: a match consumes
the same token on both sides (otherwise matches could rename for free),
a substitution consumes one token on each side, a deletion consumes only a
reference token, an insertion only an evidence token. -/
def scriptOpOk (op : AOp α) : Prop :=
  match op.type with
  | .match_ => ∃ a, op.ref_hash = some a ∧ op.ev_hash = some a
  | .substitution => (∃ a, op.ref_hash = some a) ∧ ∃ b, op.ev_hash = some b
  | .deletion => (∃ a, op.ref_hash = some a) ∧ op.ev_hash = none
  | .insertion => op.ref_hash = none ∧ ∃ b, op.ev_hash = some b

/-- Predicate: `al` is an edit script transforming token sequence `A` into `B`:
all operations are well formed, the consumed reference tokens are exactly
`A` in order, and the produced evidence tokens are exactly `B` in order. -/
def EditScriptFor (al : List (AOp α)) (A B : List α) : Prop :=
  (∀ op ∈ al, scriptOpOk op) ∧ refTokens al = A ∧ evTokens al = B

/-- Lower bound: no edit script transforming `A` into `B` uses fewer
costed operations than the Levenshtein distance. -/
theorem lev_le_opsCost :
    ∀ (al : List (AOp α)) (A B : List α), EditScriptFor al A B →
      lev A B ≤ opsCost al := by
  intro al
  induction al with
  | nil =>
    intro A B hs
    obtain ⟨_, hA, hB⟩ := hs
    simp only [refTokens, List.filterMap_nil] at hA
    simp only [evTokens, List.filterMap_nil] at hB
    subst hA; subst hB
    simp [lev_nil_left, opsCost]
  | cons op al ih =>
    intro A B hs
    obtain ⟨hwf, hA, hB⟩ := hs
    have hop := hwf op (List.mem_cons_self op al)
    have hrest : ∀ o ∈ al, scriptOpOk o := fun o ho => hwf o (List.mem_cons_of_mem op ho)
    have hcost := opsCost_cons op al
    cases ht : op.type with
    | match_ =>
      simp only [scriptOpOk, ht] at hop
      obtain ⟨a, hra, hea⟩ := hop
      rw [refTokens, List.filterMap_cons, hra] at hA
      rw [evTokens, List.filterMap_cons, hea] at hB
      subst hA; subst hB
      rw [hcost, ht]
      have h0 := ih (refTokens al) (evTokens al) ⟨hrest, rfl, rfl⟩
      rw [lev_cons_cons, if_pos rfl]
      simpa [refTokens, evTokens] using h0
    | substitution =>
      simp only [scriptOpOk, ht] at hop
      obtain ⟨⟨a, hra⟩, b, heb⟩ := hop
      rw [refTokens, List.filterMap_cons, hra] at hA
      rw [evTokens, List.filterMap_cons, heb] at hB
      subst hA; subst hB
      rw [hcost, ht, if_neg (by decide : ¬(OpType.substitution = OpType.match_))]
      have h0 := ih (refTokens al) (evTokens al) ⟨hrest, rfl, rfl⟩
      have h1 := lev_sub_le a b (refTokens al) (evTokens al)
      simp only [refTokens, evTokens] at h0 h1 ⊢
      omega
    | deletion =>
      simp only [scriptOpOk, ht] at hop
      obtain ⟨⟨a, hra⟩, hen⟩ := hop
      rw [refTokens, List.filterMap_cons, hra] at hA
      rw [evTokens, List.filterMap_cons, hen] at hB
      subst hA; subst hB
      rw [hcost, ht, if_neg (by decide : ¬(OpType.deletion = OpType.match_))]
      have h0 := ih (refTokens al) (evTokens al) ⟨hrest, rfl, rfl⟩
      have h1 := lev_del_le a (refTokens al) (evTokens al)
      simp only [refTokens, evTokens] at h0 h1 ⊢
      omega
    | insertion =>
      simp only [scriptOpOk, ht] at hop
      obtain ⟨hrn, b, heb⟩ := hop
      rw [refTokens, List.filterMap_cons, hrn] at hA
      rw [evTokens, List.filterMap_cons, heb] at hB
      subst hA; subst hB
      rw [hcost, ht, if_neg (by decide : ¬(OpType.insertion = OpType.match_))]
      have h0 := ih (refTokens al) (evTokens al) ⟨hrest, rfl, rfl⟩
      have h1 := lev_ins_le b (refTokens al) (evTokens al)
      simp only [refTokens, evTokens] at h0 h1 ⊢
      omega

theorem editScript_reverse (al : List (AOp α)) (A B : List α)
    (h : EditScriptFor al A B) : EditScriptFor al.reverse A.reverse B.reverse := by
  obtain ⟨hwf, hA, hB⟩ := h
  refine ⟨fun op hop => hwf op (List.mem_reverse.mp hop), ?_, ?_⟩
  · rw [refTokens, List.filterMap_reverse, ← refTokens, hA]
  · rw [evTokens, List.filterMap_reverse, ← evTokens, hB]

theorem opsCost_reverse (al : List (AOp α)) : opsCost al.reverse = opsCost al := by
  rw [opsCost, opsCost, List.countP_reverse]

theorem length_hashList (l : List (FrameHash α)) :
    (hashList l).length = l.length := by
  simp [hashList]

/-- The alignment returned by `align_sequences` replays to exactly the two
input token sequences. -/
theorem align_replay (refH evH : List (FrameHash α)) :
    refTokens (align_sequences refH evH).1 = hashList refH ∧
    evTokens (align_sequences refH evH).1 = hashList evH := by
  obtain ⟨hr, he⟩ := backtrack_replay refH evH (refH.length + evH.length)
    refH.length evH.length le_rfl le_rfl le_rfl
  constructor
  · rw [align_sequences]
    simp only
    rw [refTokens, List.filterMap_reverse, ← refTokens, hr,
      ← length_hashList refH, List.take_length, List.reverse_reverse]
  · rw [align_sequences]
    simp only
    rw [evTokens, List.filterMap_reverse, ← evTokens, he,
      ← length_hashList evH, List.take_length, List.reverse_reverse]

/-- Every operation of the returned alignment is well formed. -/
theorem align_wf (refH evH : List (FrameHash α)) :
    ∀ op ∈ (align_sequences refH evH).1, opWellFormed refH evH op := by
  intro op hop
  rw [align_sequences] at hop
  simp only at hop
  exact backtrack_wf refH evH (refH.length + evH.length) refH.length evH.length
    le_rfl le_rfl le_rfl op (List.mem_reverse.mp hop)

/-- The returned edit distance is the number of costed operations in the
returned alignment. -/
theorem align_cost (refH evH : List (FrameHash α)) :
    opsCost (align_sequences refH evH).1 = (align_sequences refH evH).2 := by
  rw [align_sequences]
  simp only
  rw [opsCost_reverse]
  exact backtrack_cost refH evH (refH.length + evH.length) refH.length evH.length
    le_rfl le_rfl le_rfl

theorem opWellFormed_scriptOpOk (refH evH : List (FrameHash α)) (op : AOp α)
    (h : opWellFormed refH evH op) : scriptOpOk op := by
  cases ht : op.type with
  | match_ =>
    simp only [opWellFormed, ht] at h
    obtain ⟨r, _, e, _, heq, _, _, hrh, heh⟩ := h
    simp only [scriptOpOk, ht]
    exact ⟨r.hash, hrh, by rw [heh, heq]⟩
  | substitution =>
    simp only [opWellFormed, ht] at h
    obtain ⟨r, _, e, _, _, _, _, hrh, heh⟩ := h
    simp only [scriptOpOk, ht]
    exact ⟨⟨r.hash, hrh⟩, e.hash, heh⟩
  | deletion =>
    simp only [opWellFormed, ht] at h
    obtain ⟨_, hen, r, _, _, hrh⟩ := h
    simp only [scriptOpOk, ht]
    exact ⟨⟨r.hash, hrh⟩, hen⟩
  | insertion =>
    simp only [opWellFormed, ht] at h
    obtain ⟨_, hrn, e, _, _, heh⟩ := h
    simp only [scriptOpOk, ht]
    exact ⟨hrn, e.hash, heh⟩

/-- The returned alignment is itself an edit script from `A` to `B`. -/
theorem align_script (refH evH : List (FrameHash α)) :
    EditScriptFor (align_sequences refH evH).1 (hashList refH) (hashList evH) :=
  ⟨fun op hop => opWellFormed_scriptOpOk refH evH op (align_wf refH evH op hop),
    (align_replay refH evH).1, (align_replay refH evH).2⟩

theorem align_d_lev (refH evH : List (FrameHash α)) :
    (align_sequences refH evH).2 =
      lev (hashList refH).reverse (hashList evH).reverse := by
  rw [align_sequences]
  simp only
  rw [← length_hashList refH, ← length_hashList evH, dpT_full]

/-- The returned edit distance is the least cost over all edit scripts
transforming the reference token sequence into the evidence one. -/
theorem align_min (refH evH : List (FrameHash α)) :
    IsLeast {c | ∃ al : List (AOp α),
        EditScriptFor al (hashList refH) (hashList evH) ∧ opsCost al = c}
      (align_sequences refH evH).2 := by
  constructor
  · exact ⟨(align_sequences refH evH).1, align_script refH evH, align_cost refH evH⟩
  · rintro c ⟨al, hs, rfl⟩
    have h1 := lev_le_opsCost al.reverse _ _
      (editScript_reverse al (hashList refH) (hashList evH) hs)
    rw [opsCost_reverse] at h1
    rw [align_d_lev]
    exact h1

/-- Value of one hexadecimal digit, upper or lower case, as accepted by
Python `int(s, 16)`. -/
def hexVal (c : Char) : Option Nat :=
  if '0' ≤ c ∧ c ≤ '9' then some (c.toNat - '0'.toNat)
  else if 'a' ≤ c ∧ c ≤ 'f' then some (c.toNat - 'a'.toNat + 10)
  else if 'A' ≤ c ∧ c ≤ 'F' then some (c.toNat - 'A'.toNat + 10)
  else none

/-- Whitespace CPython `int(s, 16)` skips around a number, for characters in
the Latin-1 range: the ASCII spaces `'\x09'`–`'\x0d'` and `' '`, plus
`U+0085` and `U+00A0`, which the conversion maps to a space first.
Whitespace and decimal digits beyond Latin-1 are outside the modeled
fragment (the fingerprint source emits ASCII hex digests). -/
def isPySpace (c : Char) : Bool :=
  decide (c = ' ' ∨ ('\x09' ≤ c ∧ c ≤ '\x0d') ∨ c = '\x85' ∨ c = '\xa0')

/-- Digit run of CPython `int(s, 16)`: hex digits with single underscores
between digits; one underscore is also legal right after the `0x` prefix,
which the caller signals with `allowSep = true`.  An underscore must be
followed by a digit, at least one digit is required (`seen`), and after
the run only trailing whitespace may remain.  `acc` is the value read so
far. -/
def scanDigits (acc : Nat) (seen allowSep : Bool) : List Char → Option Nat
  | [] => if seen then some acc else none
  | c :: cs =>
    match hexVal c with
    | some v => scanDigits (16 * acc + v) true true cs
    | none =>
      if c = '_' then
        if allowSep then
          match cs with
          | [] => none
          | c' :: cs' =>
            match hexVal c' with
            | some v => scanDigits (16 * acc + v) true true cs'
            | none => none
        else none
      else if isPySpace c then
        if seen && cs.all isPySpace then some acc else none
      else none

/-- Magnitude part after the optional sign: an optional `0x`/`0X` prefix
(which licenses one leading underscore), then the digit run. -/
def parseMagnitude : List Char → Option Nat
  | '0' :: 'x' :: rest => scanDigits 0 false true rest
  | '0' :: 'X' :: rest => scanDigits 0 false true rest
  | rest => scanDigits 0 false false rest

/-- Model of CPython `int(s, 16)` on Latin-1 strings: optional surrounding
whitespace, an optional single `+`/`-` sign, an optional `0x`/`0X` prefix,
then a nonempty run of hex digits with single underscores between digits
(or one right after the prefix).  Anything else — including the empty
string and a bare prefix — raises `ValueError`, modeled as `none`.  The
value is a signed integer (`int("-f", 16) = -15`). -/
def parseHex (s : String) : Option Int :=
  match s.toList.dropWhile isPySpace with
  | '+' :: rest => (parseMagnitude rest).map fun n => (n : Int)
  | '-' :: rest => (parseMagnitude rest).map fun n => -(n : Int)
  | rest => (parseMagnitude rest).map fun n => (n : Int)

/-- Fuel-driven binary digit sum: `popCountAux fuel n` is the number of set
bits of `n` whenever `n ≤ fuel`. -/
def popCountAux : Nat → Nat → Nat
  | 0, _ => 0
  | fuel + 1, n => if n = 0 then 0 else n % 2 + popCountAux fuel (n / 2)

/-- Number of set bits of `n`, mirroring `bin(xor_result).count('1')`. -/
def popCount (n : Nat) : Nat := popCountAux n n

theorem popCountAux_eq_zero_iff :
    ∀ fuel n, n ≤ fuel → (popCountAux fuel n = 0 ↔ n = 0) := by
  intro fuel
  induction fuel with
  | zero =>
    intro n h
    have : n = 0 := by omega
    subst this
    simp [popCountAux]
  | succ fuel ih =>
    intro n h
    by_cases h0 : n = 0
    · subst h0; simp [popCountAux]
    · rw [popCountAux, if_neg h0]
      constructor
      · intro he
        have hm : n % 2 = 0 := by omega
        have hr : popCountAux fuel (n / 2) = 0 := by omega
        have hd : n / 2 ≤ fuel := by omega
        have := (ih (n / 2) hd).mp hr
        omega
      · intro hc
        exact absurd hc h0

theorem popCount_eq_zero_iff (n : Nat) : popCount n = 0 ↔ n = 0 :=
  popCountAux_eq_zero_iff n n le_rfl

/-- The result dict of `calculate_hamming_distance`. -/
structure HammingResult where
  hamming_distance : Nat
  max_bits : Nat
  similarity_percentage : ℚ
deriving DecidableEq

/-- Function `calculate_hamming_distance(hash1, hash2)`: `None` (here `none`) for an
empty argument, a length mismatch, or a failed hex parse; otherwise the bit
count of the XOR, the width `4 * len`, and the similarity percentage
`(max_bits - hamming_distance) / max_bits * 100` (exact rationals standing
in for Python floats).  Python `^` on ints is two's-complement XOR
(`Int.xor`), and `bin(x).count('1')` for a negative `x` counts the set
bits of `|x|`, since `bin` renders a minus sign before the magnitude. -/
def calculate_hamming_distance (hash1 hash2 : String) : Option HammingResult :=
  if hash1 = "" ∨ hash2 = "" then none
  else if hash1.length ≠ hash2.length then none
  else
    match parseHex hash1, parseHex hash2 with
    | some int1, some int2 =>
      some ⟨popCount (Int.xor int1 int2).natAbs, hash1.length * 4,
        ((hash1.length * 4 : ℚ) - (popCount (Int.xor int1 int2).natAbs : ℚ)) /
            (hash1.length * 4 : ℚ) * 100⟩
    | _, _ => none

/-- Failing inputs of `calculate_hamming_distance`, exactly. -/
theorem chd_none_iff (hash1 hash2 : String) :
    calculate_hamming_distance hash1 hash2 = none ↔
      (hash1 = "" ∨ hash2 = "" ∨ hash1.length ≠ hash2.length ∨
        parseHex hash1 = none ∨ parseHex hash2 = none) := by
  rw [calculate_hamming_distance]
  by_cases he : hash1 = "" ∨ hash2 = ""
  · rw [if_pos he]; tauto
  · rw [if_neg he]
    by_cases hl : hash1.length ≠ hash2.length
    · rw [if_pos hl]; tauto
    · rw [if_neg hl]
      cases hp1 : parseHex hash1 with
      | none => simp [hp1]
      | some int1 =>
        cases hp2 : parseHex hash2 with
        | none => simp [hp1, hp2]
        | some int2 => simp [hp1, hp2]; tauto

/-- On a success, the fields of the result are determined by the parses. -/
theorem chd_some (hash1 hash2 : String) (r : HammingResult)
    (h : calculate_hamming_distance hash1 hash2 = some r) :
    hash1 ≠ "" ∧ hash1.length = hash2.length ∧
      ∃ int1 int2 : Int, parseHex hash1 = some int1 ∧ parseHex hash2 = some int2 ∧
        r = ⟨popCount (Int.xor int1 int2).natAbs, hash1.length * 4,
          ((hash1.length * 4 : ℚ) - (popCount (Int.xor int1 int2).natAbs : ℚ)) /
              (hash1.length * 4 : ℚ) * 100⟩ := by
  rw [calculate_hamming_distance] at h
  by_cases he : hash1 = "" ∨ hash2 = ""
  · rw [if_pos he] at h; exact absurd h (by simp)
  · rw [if_neg he] at h
    by_cases hl : hash1.length ≠ hash2.length
    · rw [if_pos hl] at h; exact absurd h (by simp)
    · rw [if_neg hl] at h
      cases hp1 : parseHex hash1 with
      | none => rw [hp1] at h; exact absurd h (by simp)
      | some int1 =>
        cases hp2 : parseHex hash2 with
        | none => rw [hp1, hp2] at h; exact absurd h (by simp)
        | some int2 =>
          rw [hp1, hp2] at h
          refine ⟨fun h1 => he (Or.inl h1), by omega, int1, int2, rfl, rfl, ?_⟩
          simpa using h.symm


/-- Call of the Distance Engine on the raw `op['ref_hash']` / `op['ev_hash']`
fields: a Python `None` argument is falsy, so the `if not hash1 or not
hash2` guard returns `None` just as for an empty string. -/
def chdOpt : Option String → Option String → Option HammingResult
  | some a, some b => calculate_hamming_distance a b
  | _, _ => none

/-- One iteration of the score-collection loop of the CLI `analyze` command:
the state is the pair `(similarity_scores, substitution_similarities)`.
A match appends `100.0`; an insertion or deletion appends `0.0`; a
substitution appends the Hamming similarity to both lists when available,
and `0.0` to the overall list only when the Distance Engine returns
`None`. -/
def scoreStep (acc : List ℚ × List ℚ) (op : AOp String) : List ℚ × List ℚ :=
  match op.type with
  | .match_ => (acc.1 ++ [100], acc.2)
  | .insertion => (acc.1 ++ [0], acc.2)
  | .deletion => (acc.1 ++ [0], acc.2)
  | .substitution =>
    match chdOpt op.ref_hash op.ev_hash with
    | some r => (acc.1 ++ [r.similarity_percentage], acc.2 ++ [r.similarity_percentage])
    | none => (acc.1 ++ [0], acc.2)

/-- The two score lists collected over the whole alignment. -/
def collectScores (alignment : List (AOp String)) : List ℚ × List ℚ :=
  alignment.foldl scoreStep ([], [])

/-- List `similarity_scores` of the CLI statistics section. -/
def similarity_scores (alignment : List (AOp String)) : List ℚ :=
  (collectScores alignment).1

/-- List `substitution_similarities` of the CLI statistics section. -/
def substitution_similarities (alignment : List (AOp String)) : List ℚ :=
  (collectScores alignment).2

/-- Average `avg_similarity`: mean of `similarity_scores`, `0.0` when empty. -/
def avg_similarity (alignment : List (AOp String)) : ℚ :=
  if similarity_scores alignment = [] then 0
  else (similarity_scores alignment).sum / (similarity_scores alignment).length

/-- Per-operation score contributed to `similarity_scores`. -/
def opScore (op : AOp String) : ℚ :=
  match op.type with
  | .match_ => 100
  | .insertion => 0
  | .deletion => 0
  | .substitution =>
    match chdOpt op.ref_hash op.ev_hash with
    | some r => r.similarity_percentage
    | none => 0

/-- Per-operation contribution to `substitution_similarities`. -/
def opSubScore (op : AOp String) : Option ℚ :=
  match op.type with
  | .substitution => (chdOpt op.ref_hash op.ev_hash).map (·.similarity_percentage)
  | _ => none

theorem collectScores_go (al : List (AOp String)) :
    ∀ acc : List ℚ × List ℚ,
      al.foldl scoreStep acc =
        (acc.1 ++ al.map opScore, acc.2 ++ al.filterMap opSubScore) := by
  induction al with
  | nil => intro acc; simp
  | cons op al ih =>
    intro acc
    rw [List.foldl_cons, ih]
    cases ht : op.type with
    | match_ => simp [scoreStep, ht, opScore, opSubScore, List.filterMap_cons]
    | insertion => simp [scoreStep, ht, opScore, opSubScore, List.filterMap_cons]
    | deletion => simp [scoreStep, ht, opScore, opSubScore, List.filterMap_cons]
    | substitution =>
      cases hr : chdOpt op.ref_hash op.ev_hash with
      | none => simp [scoreStep, ht, hr, opScore, opSubScore, List.filterMap_cons]
      | some r => simp [scoreStep, ht, hr, opScore, opSubScore, List.filterMap_cons]

/-- Closed form of the two collected score lists. -/
theorem collectScores_eq (al : List (AOp String)) :
    collectScores al = (al.map opScore, al.filterMap opSubScore) := by
  rw [collectScores, collectScores_go]
  simp

theorem entryD_getElem (l : List (FrameHash α)) (i : Nat) (h : i < l.length) :
    entryD l i = l[i] := by
  rw [entryD, List.getD_eq_getElem _ _ h]

/-- Closed form of the `j = 0` backtracking column: pure deletions of the
first `i` reference entries, newest first. -/
theorem backtrack_col_closed (refH evH : List (FrameHash α)) :
    ∀ i, i ≤ refH.length →
      backtrack refH evH i 0 =
        ((refH.take i).map (fun r =>
          (⟨.deletion, some r.frame_number, none, some r.hash, none⟩ : AOp α))).reverse := by
  intro i
  induction i with
  | zero =>
    intro _
    rw [backtrack_zero_zero]
    simp
  | succ i ih =>
    intro h
    have h' : i < refH.length := h
    have e1 : entryD refH i = refH[i] := entryD_getElem refH i h'
    have e2 : tokD refH i = refH[i].hash := by
      rw [tokD_eq_hash refH i h', e1]
    rw [backtrack_col, ih (by omega), List.map_take, List.map_take,
      take_reverse_succ _ i (by simpa using h'), List.getElem_map]
    simp [e1, e2]

/-- Closed form of the `i = 0` backtracking row: pure insertions of the
first `j` evidence entries, newest first. -/
theorem backtrack_row_closed (refH evH : List (FrameHash α)) :
    ∀ j, j ≤ evH.length →
      backtrack refH evH 0 j =
        ((evH.take j).map (fun e =>
          (⟨.insertion, none, some e.frame_number, none, some e.hash⟩ : AOp α))).reverse := by
  intro j
  induction j with
  | zero =>
    intro _
    rw [backtrack_zero_zero]
    simp
  | succ j ih =>
    intro h
    have h' : j < evH.length := h
    have e1 : entryD evH j = evH[j] := entryD_getElem evH j h'
    have e2 : tokD evH j = evH[j].hash := by
      rw [tokD_eq_hash evH j h', e1]
    rw [backtrack_row, ih (by omega), List.map_take, List.map_take,
      take_reverse_succ _ j (by simpa using h'), List.getElem_map]
    simp [e1, e2]

/-- Alignment `align(A, [])`: `|A|` deletions in chronological order, distance `|A|`. -/
theorem align_sequences_nil_right (refH : List (FrameHash α)) :
    align_sequences refH ([] : List (FrameHash α)) =
      (refH.map (fun r =>
        (⟨.deletion, some r.frame_number, none, some r.hash, none⟩ : AOp α)),
        refH.length) := by
  rw [align_sequences]
  simp only [List.length_nil]
  rw [backtrack_col_closed refH [] refH.length le_rfl,
    dpT_i_zero, List.take_length, List.reverse_reverse]

/-- Alignment `align([], B)`: `|B|` insertions in chronological order, distance `|B|`. -/
theorem align_sequences_nil_left (evH : List (FrameHash α)) :
    align_sequences ([] : List (FrameHash α)) evH =
      (evH.map (fun e =>
        (⟨.insertion, none, some e.frame_number, none, some e.hash⟩ : AOp α)),
        evH.length) := by
  rw [align_sequences]
  simp only [List.length_nil]
  rw [backtrack_row_closed [] evH evH.length le_rfl,
    dpT_zero_j, List.take_length, List.reverse_reverse]

/-- Dropping insertion operations before collecting reference-side tokens
changes nothing on a well-formed alignment: insertions carry no reference
token. -/
theorem filter_ins_refTokens (refH evH : List (FrameHash α))
    (al : List (AOp α)) (hwf : ∀ op ∈ al, opWellFormed refH evH op) :
    (al.filter (fun op => !decide (op.type = OpType.insertion))).filterMap
        (·.ref_hash) = refTokens al := by
  induction al with
  | nil => simp [refTokens]
  | cons op al ih =>
    have hop := hwf op (List.mem_cons_self op al)
    have hrest := fun o ho => hwf o (List.mem_cons_of_mem op ho)
    rw [refTokens, List.filterMap_cons]
    cases ht : op.type with
    | insertion =>
      simp only [opWellFormed, ht] at hop
      obtain ⟨_, hrn, _⟩ := hop
      rw [List.filter_cons_of_neg (by simp [ht]), hrn, ih hrest, refTokens]
    | match_ =>
      rw [List.filter_cons_of_pos (by simp [ht]), List.filterMap_cons, ih hrest,
        refTokens]
    | substitution =>
      rw [List.filter_cons_of_pos (by simp [ht]), List.filterMap_cons, ih hrest,
        refTokens]
    | deletion =>
      rw [List.filter_cons_of_pos (by simp [ht]), List.filterMap_cons, ih hrest,
        refTokens]

/-- Dropping deletion operations before collecting evidence-side tokens
changes nothing on a well-formed alignment: deletions carry no evidence
token. -/
theorem filter_del_evTokens (refH evH : List (FrameHash α))
    (al : List (AOp α)) (hwf : ∀ op ∈ al, opWellFormed refH evH op) :
    (al.filter (fun op => !decide (op.type = OpType.deletion))).filterMap
        (·.ev_hash) = evTokens al := by
  induction al with
  | nil => simp [evTokens]
  | cons op al ih =>
    have hop := hwf op (List.mem_cons_self op al)
    have hrest := fun o ho => hwf o (List.mem_cons_of_mem op ho)
    rw [evTokens, List.filterMap_cons]
    cases ht : op.type with
    | deletion =>
      simp only [opWellFormed, ht] at hop
      obtain ⟨_, hen, _⟩ := hop
      rw [List.filter_cons_of_neg (by simp [ht]), hen, ih hrest, evTokens]
    | match_ =>
      rw [List.filter_cons_of_pos (by simp [ht]), List.filterMap_cons, ih hrest,
        evTokens]
    | substitution =>
      rw [List.filter_cons_of_pos (by simp [ht]), List.filterMap_cons, ih hrest,
        evTokens]
    | insertion =>
      rw [List.filter_cons_of_pos (by simp [ht]), List.filterMap_cons, ih hrest,
        evTokens]

/-- Exact preference order of the interior backtracking step, with the
final `else` resolved to an unconditional insertion (the fourth guard is
proved to hold whenever the first three fail). -/
theorem backtrack_chain (refH evH : List (FrameHash α)) (i j : Nat) :
    backtrack refH evH (i + 1) (j + 1) =
      if tokD refH i = tokD evH j then
        ⟨.match_, some (entryD refH i).frame_number, some (entryD evH j).frame_number,
          some (tokD refH i), some (tokD evH j)⟩ :: backtrack refH evH i j
      else if dpT (hashList refH) (hashList evH) (i + 1) (j + 1) =
          dpT (hashList refH) (hashList evH) i j + 1 then
        ⟨.substitution, some (entryD refH i).frame_number, some (entryD evH j).frame_number,
          some (tokD refH i), some (tokD evH j)⟩ :: backtrack refH evH i j
      else if dpT (hashList refH) (hashList evH) (i + 1) (j + 1) =
          dpT (hashList refH) (hashList evH) i (j + 1) + 1 then
        ⟨.deletion, some (entryD refH i).frame_number, none, some (tokD refH i), none⟩ ::
          backtrack refH evH i (j + 1)
      else
        ⟨.insertion, none, some (entryD evH j).frame_number, none, some (tokD evH j)⟩ ::
          backtrack refH evH (i + 1) j := by
  by_cases h1 : tokD refH i = tokD evH j
  · rw [backtrack_match refH evH i j h1, if_pos h1]
  · rw [if_neg h1]
    by_cases h2 : dpT (hashList refH) (hashList evH) (i + 1) (j + 1) =
        dpT (hashList refH) (hashList evH) i j + 1
    · rw [backtrack_sub refH evH i j h1 h2, if_pos h2]
    · rw [if_neg h2]
      by_cases h3 : dpT (hashList refH) (hashList evH) (i + 1) (j + 1) =
          dpT (hashList refH) (hashList evH) i (j + 1) + 1
      · rw [backtrack_del refH evH i j h1 h2 h3, if_pos h3]
      · rw [if_neg h3, backtrack_ins refH evH i j h1 h2 h3]

/-- Success case of `calculate_hamming_distance` with given parse results. -/
theorem chd_eval (hash1 hash2 : String) (int1 int2 : Int)
    (h1 : ¬hash1 = "") (h2 : ¬hash2 = "") (hl : hash1.length = hash2.length)
    (hp1 : parseHex hash1 = some int1) (hp2 : parseHex hash2 = some int2) :
    calculate_hamming_distance hash1 hash2 =
      some ⟨popCount (Int.xor int1 int2).natAbs, hash1.length * 4,
        ((hash1.length * 4 : ℚ) - (popCount (Int.xor int1 int2).natAbs : ℚ)) /
            (hash1.length * 4 : ℚ) * 100⟩ := by
  rw [calculate_hamming_distance, if_neg (by tauto), if_neg (by omega), hp1, hp2]

/-- Fidelity of `parseHex` against CPython `int(s, 16)`: prefixes, signs,
surrounding whitespace and single underscores are accepted; the empty
string, a bare prefix, misplaced underscores and non-digits fail. -/
theorem parseHex_trace :
    parseHex "0xAB" = some 171 ∧ parseHex "0X1_F" = some 31 ∧
    parseHex " +1_a " = some 26 ∧ parseHex "0x_ff" = some 255 ∧
    parseHex "-f" = some (-15) ∧ parseHex "\t5\n" = some 5 ∧
    parseHex "-0x1a" = some (-26) ∧ parseHex "" = none ∧
    parseHex "0x" = none ∧ parseHex "1__a" = none ∧ parseHex "_1" = none ∧
    parseHex "1_" = none ∧ parseHex "+ 1" = none ∧ parseHex "0x-1" = none ∧
    parseHex "zz" = none := by
  decide

/-- Distance over `0x`-prefixed tokens: `"0xAB"` and `"0xCD"` are accepted
(length 4, so width 16), with bit distance `4` and similarity `75`. -/
theorem chd_prefix_trace :
    (calculate_hamming_distance "0xAB" "0xCD").map (·.hamming_distance) = some 4 ∧
    (calculate_hamming_distance "0xAB" "0xCD").map (·.max_bits) = some 16 ∧
    (calculate_hamming_distance "0xAB" "0xCD").map (·.similarity_percentage) =
      some 75 := by
  have h := chd_eval "0xAB" "0xCD" 171 205 (by decide) (by decide) (by decide)
    (by decide) (by decide)
  have hl : "0xAB".length = 4 := by decide
  have hp : popCount (Int.xor 171 205).natAbs = 4 := by decide
  rw [h]
  refine ⟨by decide, by decide, ?_⟩
  simp only [Option.map_some']
  rw [hl, hp]
  norm_num

/-- Two's-complement XOR of two integers vanishes exactly on equal
integers, matching Python `a ^ b == 0` iff `a == b`. -/
theorem int_xor_eq_zero (a b : Int) : Int.xor a b = 0 ↔ a = b := by
  cases a with
  | ofNat m =>
    cases b with
    | ofNat n => simp [Int.xor, Nat.xor_eq_zero]
    | negSucc n => simp [Int.xor]
  | negSucc m =>
    cases b with
    | ofNat n => simp [Int.xor]
    | negSucc n => simp [Int.xor, Nat.xor_eq_zero]

/-- C6 (counterexample): the tokens `"A"` and `"a"` are valid, non-empty,
of equal width and distinct, yet their bit distance is `0`, because the
hex parse is case-insensitive.  So `bit_distance == 0` does not imply
`token_a == token_b`. -/
theorem claim6_counterexample :
    (calculate_hamming_distance "A" "a").map (·.hamming_distance) = some 0 ∧
    ("A" : String) ≠ "a" ∧
    (calculate_hamming_distance "A" "a").isSome = true := by
  decide

/-- C6 (amended): for tokens accepted by `calculate_hamming_distance`,
`hamming_distance == 0` iff the two tokens parse — per Python
`int(s, 16)`, with whitespace, sign, `0x` prefix and underscores — to the
same numeric value (in particular equal tokens give `0`), in which case
`similarity_percentage == 100`; and `hamming_distance == max_bits` gives
`similarity_percentage == 0`. -/
theorem claim6_ok (hash1 hash2 : String) (r : HammingResult)
    (h : calculate_hamming_distance hash1 hash2 = some r) :
    (r.hamming_distance = 0 ↔ parseHex hash1 = parseHex hash2) ∧
    (hash1 = hash2 → r.hamming_distance = 0) ∧
    (r.hamming_distance = 0 → r.similarity_percentage = 100) ∧
    (r.hamming_distance = r.max_bits → r.similarity_percentage = 0) := by
  obtain ⟨hne, hlen, int1, int2, hp1, hp2, hr⟩ := chd_some hash1 hash2 r h
  subst hr
  have hl0 : 0 < hash1.length := by
    rcases Nat.eq_zero_or_pos hash1.length with h0 | h0
    · refine absurd ?_ hne
      cases hash1 with
      | mk data =>
        cases data with
        | nil => rfl
        | cons c cs => simp [String.length] at h0
    · exact h0
  have hL : ((hash1.length : ℚ) * 4) ≠ 0 := by
    have : (0 : ℚ) < (hash1.length : ℚ) := by exact_mod_cast hl0
    positivity
  refine ⟨?_, ?_, ?_, ?_⟩
  · show popCount (Int.xor int1 int2).natAbs = 0 ↔ _
    rw [popCount_eq_zero_iff, Int.natAbs_eq_zero, int_xor_eq_zero, hp1, hp2]
    simp
  · intro heq
    rw [heq, hp2] at hp1
    have h12 : int2 = int1 := by simpa using hp1
    show popCount (Int.xor int1 int2).natAbs = 0
    rw [h12]
    have hxs : Int.xor int1 int1 = 0 := (int_xor_eq_zero int1 int1).mpr rfl
    rw [hxs]
    rfl
  · intro h0
    show ((hash1.length : ℚ) * 4 - (popCount (Int.xor int1 int2).natAbs : ℚ)) /
        ((hash1.length : ℚ) * 4) * 100 = 100
    replace h0 : popCount (Int.xor int1 int2).natAbs = 0 := h0
    rw [h0]
    push_cast
    rw [sub_zero, div_self hL, one_mul]
  · intro hm
    replace hm : popCount (Int.xor int1 int2).natAbs = hash1.length * 4 := hm
    show ((hash1.length : ℚ) * 4 - (popCount (Int.xor int1 int2).natAbs : ℚ)) /
        ((hash1.length : ℚ) * 4) * 100 = 0
    rw [hm]
    push_cast
    rw [sub_self, zero_div, zero_mul]

/-- C6 (witness): concrete success of the amended claim at `"0"`, `"0"`. -/
theorem claim6_witness :
    calculate_hamming_distance "0" "0" =
      some ⟨popCount (Int.xor 0 0).natAbs, "0".length * 4,
        (("0".length * 4 : ℚ) - (popCount (Int.xor 0 0).natAbs : ℚ)) /
            ("0".length * 4 : ℚ) * 100⟩ ∧
    (popCount (Int.xor 0 0).natAbs = 0 ↔ parseHex "0" = parseHex "0") := by
  have h := chd_eval "0" "0" 0 0 (by decide) (by decide) (by decide)
    (by decide) (by decide)
  exact ⟨h, (claim6_ok "0" "0" _ h).1⟩

/-- C7 (counterexample): an unparseable pair, a width-mismatched pair and
an empty pair all fail with the very same value `None`; the code does not
report a distinct `InvalidToken` error for the unparseable case. -/
theorem claim7_counterexample :
    calculate_hamming_distance "zz" "00" = none ∧
    calculate_hamming_distance "0" "00" = none ∧
    calculate_hamming_distance "" "00" = none ∧
    calculate_hamming_distance "zz" "00" = calculate_hamming_distance "0" "00" := by
  decide

/-- C7 (amended): `calculate_hamming_distance` reports failure to the
caller as the single typed value `None` — never an exception — and it does
so exactly when a token is empty, the lengths differ, or a token fails to
parse under Python `int(s, 16)` (which accepts surrounding whitespace, a
sign, a `0x`/`0X` prefix and single digit-group underscores, and rejects
an empty digit run); the failure kinds are not distinguished. -/
theorem claim7_ok (hash1 hash2 : String) :
    calculate_hamming_distance hash1 hash2 = none ↔
      (hash1 = "" ∨ hash2 = "" ∨ hash1.length ≠ hash2.length ∨
        parseHex hash1 = none ∨ parseHex hash2 = none) :=
  chd_none_iff hash1 hash2

/-- C8 (counterexample): a substitution whose hashes the Distance Engine
rejects (`"zz"` is not hex) contributes `0.0` to `similarity_scores` — it
is included in the aggregate averaging (here dragging the average of a
perfect match down to `50`) instead of being excluded; only
`substitution_similarities` omits it. -/
theorem claim8_counterexample :
    similarity_scores
        [⟨.match_, some 1, some 1, some "aa", some "aa"⟩,
          ⟨.substitution, some 2, some 2, some "zz", some "00"⟩] = [100, 0] ∧
    substitution_similarities
        [⟨.match_, some 1, some 1, some "aa", some "aa"⟩,
          ⟨.substitution, some 2, some 2, some "zz", some "00"⟩] = [] ∧
    avg_similarity
        [⟨.match_, some 1, some 1, some "aa", some "aa"⟩,
          ⟨.substitution, some 2, some 2, some "zz", some "00"⟩] = 50 := by
  have hchd : chdOpt (some "zz") (some "00") = none := by decide
  have h1 : similarity_scores
      [⟨.match_, some 1, some 1, some "aa", some "aa"⟩,
        ⟨.substitution, some 2, some 2, some "zz", some "00"⟩] = [100, 0] := by
    simp [similarity_scores, collectScores, List.foldl_cons, scoreStep, hchd]
  have h2 : substitution_similarities
      [⟨.match_, some 1, some 1, some "aa", some "aa"⟩,
        ⟨.substitution, some 2, some 2, some "zz", some "00"⟩] = [] := by
    simp [substitution_similarities, collectScores, List.foldl_cons, scoreStep, hchd]
  refine ⟨h1, h2, ?_⟩
  rw [avg_similarity, if_neg (by rw [h1]; decide), h1]
  norm_num

/-- C8 (amended): per-operation scores are `100.0` for a match, `0.0` for
an insertion or deletion, and the Distance Engine's
`similarity_percentage` for a substitution; when the Distance Engine
returns `None` for a substitution the operation scores `0.0` in
`similarity_scores` (so it is included in the overall aggregate) and is
excluded only from `substitution_similarities`; the computation never
aborts. -/
theorem claim8_ok (alignment : List (AOp String)) :
    similarity_scores alignment = alignment.map opScore ∧
    substitution_similarities alignment = alignment.filterMap opSubScore := by
  rw [similarity_scores, substitution_similarities, collectScores_eq]
  exact ⟨rfl, rfl⟩

/-- C1: for every pair of token sequences, `align_sequences` returns an
edit distance that is the least number of substitution/insertion/deletion
operations (matches cost zero) of any edit script transforming the
reference token sequence into the evidence one, and that distance is
computed by the stated dynamic-programming recurrence with base cases
`dp[i][0] = i` and `dp[0][j] = j`. -/
theorem claim1_ok (refH evH : List (FrameHash String)) :
    IsLeast {c : Nat | ∃ al : List (AOp String),
        EditScriptFor al (hashList refH) (hashList evH) ∧ opsCost al = c}
      (align_sequences refH evH).2 ∧
    (align_sequences refH evH).2 =
      dpT (hashList refH) (hashList evH) refH.length evH.length ∧
    (∀ i, dpT (hashList refH) (hashList evH) i 0 = i) ∧
    (∀ j, dpT (hashList refH) (hashList evH) 0 j = j) ∧
    (∀ i j, dpT (hashList refH) (hashList evH) (i + 1) (j + 1) =
      if (hashList refH).getD i default = (hashList evH).getD j default then
        dpT (hashList refH) (hashList evH) i j
      else 1 + min (dpT (hashList refH) (hashList evH) i (j + 1))
        (min (dpT (hashList refH) (hashList evH) (i + 1) j)
          (dpT (hashList refH) (hashList evH) i j))) :=
  ⟨align_min refH evH, rfl, fun i => dpT_i_zero _ _ i, fun j => dpT_zero_j _ _ j,
    fun i j => dpT_succ_succ _ _ i j⟩

/-- C1 (witness): the minimality statement instantiated at the concrete
pair `A = [(frame 1, "a")]`, `B = []`. -/
theorem claim1_witness :
    IsLeast {c : Nat | ∃ al : List (AOp String),
        EditScriptFor al (hashList [⟨1, "a"⟩])
          (hashList ([] : List (FrameHash String))) ∧ opsCost al = c}
      (align_sequences [⟨1, "a"⟩] ([] : List (FrameHash String))).2 :=
  (claim1_ok [⟨1, "a"⟩] []).1

/-- C2: backtracking emits operations by the exact preference order —
match when the tokens are equal, else substitution when
`dp[i][j] == dp[i-1][j-1] + 1`, else deletion when
`dp[i][j] == dp[i-1][j] + 1`, else insertion — at interior cells, with the
forced deletion column and insertion row at the boundary; consequently
`align_sequences` is a function of its inputs: runs on equal inputs give
equal alignments and distances. -/
theorem claim2_ok (refH evH A B : List (FrameHash String)) (i j : Nat)
    (hA : A = refH) (hB : B = evH) :
    (backtrack refH evH (i + 1) (j + 1) =
      if tokD refH i = tokD evH j then
        ⟨.match_, some (entryD refH i).frame_number, some (entryD evH j).frame_number,
          some (tokD refH i), some (tokD evH j)⟩ :: backtrack refH evH i j
      else if dpT (hashList refH) (hashList evH) (i + 1) (j + 1) =
          dpT (hashList refH) (hashList evH) i j + 1 then
        ⟨.substitution, some (entryD refH i).frame_number, some (entryD evH j).frame_number,
          some (tokD refH i), some (tokD evH j)⟩ :: backtrack refH evH i j
      else if dpT (hashList refH) (hashList evH) (i + 1) (j + 1) =
          dpT (hashList refH) (hashList evH) i (j + 1) + 1 then
        ⟨.deletion, some (entryD refH i).frame_number, none, some (tokD refH i), none⟩ ::
          backtrack refH evH i (j + 1)
      else
        ⟨.insertion, none, some (entryD evH j).frame_number, none, some (tokD evH j)⟩ ::
          backtrack refH evH (i + 1) j) ∧
    (backtrack refH evH (i + 1) 0 =
      ⟨.deletion, some (entryD refH i).frame_number, none, some (tokD refH i), none⟩ ::
        backtrack refH evH i 0) ∧
    (backtrack refH evH 0 (j + 1) =
      ⟨.insertion, none, some (entryD evH j).frame_number, none, some (tokD evH j)⟩ ::
        backtrack refH evH 0 j) ∧
    backtrack refH evH 0 0 = [] ∧
    align_sequences A B = align_sequences refH evH :=
  ⟨backtrack_chain refH evH i j, backtrack_col refH evH i, backtrack_row refH evH j,
    backtrack_zero_zero refH evH, by rw [hA, hB]⟩

/-- C2 (witness): determinism at a concrete pair of inputs. -/
theorem claim2_witness :
    ([(⟨1, "a"⟩ : FrameHash String)] = [⟨1, "a"⟩]) ∧
    ([(⟨2, "b"⟩ : FrameHash String)] = [⟨2, "b"⟩]) ∧
    align_sequences [(⟨1, "a"⟩ : FrameHash String)] [⟨2, "b"⟩] =
      align_sequences [⟨1, "a"⟩] [⟨2, "b"⟩] :=
  ⟨rfl, rfl,
    (claim2_ok [⟨1, "a"⟩] [⟨2, "b"⟩] [⟨1, "a"⟩] [⟨2, "b"⟩] 0 0 rfl rfl).2.2.2.2⟩

/-- C3 (counterexample): for `A = [(frame 1, "a")]` and `B = []` the
alignment is a single deletion, so collecting the reference-side tokens of
the non-deletion operations yields `[]`, not `A`'s token sequence `["a"]`.
-/
theorem claim3_counterexample :
    (((align_sequences [⟨1, "a"⟩] ([] : List (FrameHash String))).1.filter
        (fun op => !decide (op.type = OpType.deletion))).filterMap
          (·.ref_hash)) ≠ hashList [⟨1, "a"⟩] := by
  rw [align_sequences_nil_right]
  decide

/-- C3 (amended): replaying the alignment in order, the reference-side
tokens of all NON-INSERTION operations reproduce sequence A's token order,
and the evidence-side tokens of all NON-DELETION operations reproduce
sequence B's token order (the claim had the two excluded kinds swapped). -/
theorem claim3_ok (refH evH : List (FrameHash String)) :
    ((align_sequences refH evH).1.filter
        (fun op => !decide (op.type = OpType.insertion))).filterMap
          (·.ref_hash) = hashList refH ∧
    ((align_sequences refH evH).1.filter
        (fun op => !decide (op.type = OpType.deletion))).filterMap
          (·.ev_hash) = hashList evH := by
  constructor
  · rw [filter_ins_refTokens refH evH _ (align_wf refH evH)]
    exact (align_replay refH evH).1
  · rw [filter_del_evTokens refH evH _ (align_wf refH evH)]
    exact (align_replay refH evH).2

/-- C4: the statistics of the produced alignment satisfy
`matches + substitutions + insertions + deletions = total_operations =
len(alignment)`, and the returned edit distance equals
`substitutions + insertions + deletions`. -/
theorem claim4_ok (refH evH : List (FrameHash String)) :
    (analyze_differences (align_sequences refH evH).1).«matches» +
        (analyze_differences (align_sequences refH evH).1).substitutions +
        (analyze_differences (align_sequences refH evH).1).insertions +
        (analyze_differences (align_sequences refH evH).1).deletions =
      (analyze_differences (align_sequences refH evH).1).total_operations ∧
    (analyze_differences (align_sequences refH evH).1).total_operations =
      (align_sequences refH evH).1.length ∧
    (align_sequences refH evH).2 =
      (analyze_differences (align_sequences refH evH).1).substitutions +
        (analyze_differences (align_sequences refH evH).1).insertions +
        (analyze_differences (align_sequences refH evH).1).deletions := by
  rw [analyze_differences_eq]
  refine ⟨countType_partition _, rfl, ?_⟩
  exact (align_cost refH evH).symm.trans (opsCost_eq_counts _)

/-- C5: `align(A, [])` is `|A|` deletions with distance `|A|`;
`align([], B)` is `|B|` insertions with distance `|B|`;
`align([], [])` is the empty alignment with distance `0`. -/
theorem claim5_ok (refH evH : List (FrameHash String)) :
    align_sequences refH ([] : List (FrameHash String)) =
      (refH.map (fun r =>
        (⟨.deletion, some r.frame_number, none, some r.hash, none⟩ : AOp String)),
        refH.length) ∧
    align_sequences ([] : List (FrameHash String)) evH =
      (evH.map (fun e =>
        (⟨.insertion, none, some e.frame_number, none, some e.hash⟩ : AOp String)),
        evH.length) ∧
    align_sequences ([] : List (FrameHash String)) ([] : List (FrameHash String)) =
      ([], 0) :=
  ⟨align_sequences_nil_right refH, align_sequences_nil_left evH, by
    rw [align_sequences_nil_right]
    simp⟩

/-- C9: `align_sequences` always terminates with a result, and at every
backtracking state other than `(0, 0)` one of the four loop branches
applies, each strictly decreasing `i + j`. -/
theorem claim9_ok (refH evH : List (FrameHash String)) (i j : Nat)
    (h : 0 < i ∨ 0 < j) :
    (∃ p, align_sequences refH evH = p) ∧
    ((0 < i ∧ 0 < j ∧ tokD refH (i - 1) = tokD evH (j - 1) ∧
        (i - 1) + (j - 1) < i + j) ∨
     (0 < i ∧ 0 < j ∧ dpT (hashList refH) (hashList evH) i j =
        dpT (hashList refH) (hashList evH) (i - 1) (j - 1) + 1 ∧
        (i - 1) + (j - 1) < i + j) ∨
     (0 < i ∧ dpT (hashList refH) (hashList evH) i j =
        dpT (hashList refH) (hashList evH) (i - 1) j + 1 ∧
        (i - 1) + j < i + j) ∨
     (0 < j ∧ dpT (hashList refH) (hashList evH) i j =
        dpT (hashList refH) (hashList evH) i (j - 1) + 1 ∧
        i + (j - 1) < i + j)) := by
  refine ⟨⟨_, rfl⟩, ?_⟩
  cases i with
  | zero =>
    cases j with
    | zero => exact absurd h (by simp)
    | succ j =>
      right; right; right
      refine ⟨by omega, ?_, by omega⟩
      simp only [Nat.add_sub_cancel]
      rw [dpT_zero_j, dpT_zero_j]
  | succ i =>
    cases j with
    | zero =>
      right; right; left
      refine ⟨by omega, ?_, by omega⟩
      simp only [Nat.add_sub_cancel]
      rw [dpT_i_zero, dpT_i_zero]
    | succ j =>
      by_cases h1 : tokD refH i = tokD evH j
      · left
        refine ⟨by omega, by omega, ?_, by omega⟩
        simpa only [Nat.add_sub_cancel] using h1
      · have h1' : ¬(hashList refH).getD i default = (hashList evH).getD j default := h1
        have e := dpT_succ_succ (hashList refH) (hashList evH) i j
        rw [if_neg h1'] at e
        simp only [Nat.add_sub_cancel]
        rcases min_choice (dpT (hashList refH) (hashList evH) i (j + 1))
          (min (dpT (hashList refH) (hashList evH) (i + 1) j)
            (dpT (hashList refH) (hashList evH) i j)) with hm | hm
        · right; right; left
          exact ⟨by omega, by omega, by omega⟩
        · rcases min_choice (dpT (hashList refH) (hashList evH) (i + 1) j)
            (dpT (hashList refH) (hashList evH) i j) with hm2 | hm2
          · right; right; right
            exact ⟨by omega, by omega, by omega⟩
          · right; left
            exact ⟨by omega, by omega, by omega, by omega⟩

/-- C9 (witness): instantiation at a concrete state. -/
theorem claim9_witness :
    (0 < 1 ∨ 0 < 0) ∧
    (∃ p, align_sequences [(⟨1, "a"⟩ : FrameHash String)]
      ([] : List (FrameHash String)) = p) :=
  ⟨by decide, (claim9_ok [⟨1, "a"⟩] [] 1 0 (by decide)).1⟩

/-- C10: every operation in a produced alignment is well formed — a match
carries equal hashes taken from source elements, a substitution unequal
hashes from source elements, a deletion has `None` evidence fields with
reference fields from a reference element, an insertion has `None`
reference fields with evidence fields from an evidence element — and no
operation has both sides `None`. -/
theorem claim10_ok (refH evH : List (FrameHash String)) (op : AOp String)
    (hop : op ∈ (align_sequences refH evH).1) :
    opWellFormed refH evH op ∧ ¬(op.ref_hash = none ∧ op.ev_hash = none) := by
  have hwf := align_wf refH evH op hop
  refine ⟨hwf, ?_⟩
  rintro ⟨hr, he⟩
  cases ht : op.type with
  | match_ =>
    simp only [opWellFormed, ht] at hwf
    obtain ⟨r, _, e, _, _, _, _, hrh, _⟩ := hwf
    rw [hr] at hrh
    simp at hrh
  | substitution =>
    simp only [opWellFormed, ht] at hwf
    obtain ⟨r, _, e, _, _, _, _, hrh, _⟩ := hwf
    rw [hr] at hrh
    simp at hrh
  | deletion =>
    simp only [opWellFormed, ht] at hwf
    obtain ⟨_, _, r, _, _, hrh⟩ := hwf
    rw [hr] at hrh
    simp at hrh
  | insertion =>
    simp only [opWellFormed, ht] at hwf
    obtain ⟨_, _, e, _, _, heh⟩ := hwf
    rw [he] at heh
    simp at heh

/-- C10 (witness): the single deletion produced for `A = [(frame 1, "a")]`,
`B = []` is in the alignment and well formed. -/
theorem claim10_witness :
    ((⟨.deletion, some 1, none, some "a", none⟩ : AOp String) ∈
        (align_sequences [⟨1, "a"⟩] ([] : List (FrameHash String))).1) ∧
    opWellFormed [⟨1, "a"⟩] ([] : List (FrameHash String))
      (⟨.deletion, some 1, none, some "a", none⟩ : AOp String) := by
  have hm : (⟨.deletion, some 1, none, some "a", none⟩ : AOp String) ∈
      (align_sequences [⟨1, "a"⟩] ([] : List (FrameHash String))).1 := by
    rw [align_sequences_nil_right]
    decide
  exact ⟨hm, (claim10_ok [⟨1, "a"⟩] [] _ hm).1⟩

end TrustFrame
